import Mathlib

/-!
Verification of the dedup library (github.com/bdragon/dedup) against its
natural-language specification.  The Go sources are shallowly embedded:
pure functions become Lean functions, the concurrent pieces become explicit
traces or step relations, Go's uint64 counters become naturals reduced
modulo 2^64, and fallible calls return an explicit result type.
-/

namespace Dedup

/-- Digest bytes. In src/sums.go, `Sum` is `[sha1.Size]byte`; it is modelled
as a list of byte values, compared by value and usable as a map key. -/
abbrev Sum := List Nat

/-- The part of an `os.FileInfo` the program consults: `Name()`, `Size()`,
`IsDir()` and whether `Mode()&os.ModeSymlink == os.ModeSymlink`.  `Size()`
is a non-negative `int64` for real files, modelled as a natural number. -/
structure GoFileInfo where
  name : String
  size : Nat
  isDir : Bool
  isSymlink : Bool
deriving DecidableEq, Repr

/-- `File` (src/sums.go): pairs a path with the file info for that path. -/
structure File where
  Path : String
  Info : GoFileInfo
deriving DecidableEq, Repr

/-- The modulus of Go's `uint64` counters. -/
def U64 : Nat := 2 ^ 64

/-- `Stats` (src/sums.go): four `uint64` counters. -/
structure Stats where
  NumFiles : Nat
  NumBytes : Nat
  NumDupFiles : Nat
  NumDupBytes : Nat
deriving DecidableEq, Repr

/-- `Sums` (src/sums.go): a map of checksums to files plus running stats.
The Go map `m` is modelled as an association list holding at most one entry
per key; the mutex only serialises access and has no pure counterpart. -/
structure Sums where
  m : List (Sum × List File)
  r : Stats
deriving DecidableEq, Repr

/-- `NewSums` (src/sums.go): the empty index with zeroed stats. -/
def NewSums : Sums := { m := [], r := ⟨0, 0, 0, 0⟩ }

/-- Go map read `s.m[sum]` with its `ok` flag, on the association list. -/
def alLookup : List (Sum × List File) → Sum → Option (List File)
  | [], _ => none
  | kv :: rest, k => if kv.1 = k then some kv.2 else alLookup rest k

/-- Go map write `s.m[sum] = v` for a key that is already present:
replaces the value stored under that key. -/
def alStore : List (Sum × List File) → Sum → List File → List (Sum × List File)
  | [], _, _ => []
  | kv :: rest, k, v => if kv.1 = k then (k, v) :: rest else kv :: alStore rest k v

/-- `Sums.Get` (src/sums.go): the list of files for `sum`, if present. -/
def Sums.Get (s : Sums) (sum : Sum) : Option (List File) := alLookup s.m sum

/-- `Sums.Append` (src/sums.go lines 62-80).  Increments `NumFiles` and adds
the file size to `NumBytes`; if the checksum is already present it appends
the file to the bucket and bumps the duplicate counters and returns `true`,
otherwise it creates a singleton bucket and returns `false`.  The `uint64`
arithmetic of the counters is taken modulo `U64`. -/
def Sums.Append (s : Sums) (sum : Sum) (file : File) : Bool × Sums :=
  let numBytes := file.Info.size % U64
  let r1 : Stats := { s.r with
    NumFiles := (s.r.NumFiles + 1) % U64
    NumBytes := (s.r.NumBytes + numBytes) % U64 }
  match alLookup s.m sum with
  | some files =>
    (true, { m := alStore s.m sum (files ++ [file]),
             r := { r1 with
               NumDupFiles := (r1.NumDupFiles + 1) % U64
               NumDupBytes := (r1.NumDupBytes + numBytes) % U64 } })
  | none => (false, { m := s.m ++ [(sum, [file])], r := r1 })

/-- The bucket stored for a digest; empty when the digest is absent. -/
def Sums.bucket (s : Sums) (sum : Sum) : List File := (alLookup s.m sum).getD []

/-- Run `Append` for each `(sum, file)` pair in order, starting from `s`. -/
def applyOpsFrom (s : Sums) (ops : List (Sum × File)) : Sums :=
  ops.foldl (fun t op => (t.Append op.1 op.2).2) s

/-- The index after a sequence of `Append` calls starting from `NewSums`. -/
def applyOps (ops : List (Sum × File)) : Sums := applyOpsFrom NewSums ops

/-- Append each file of `fs` under one digest in order, collecting the
booleans returned by the successive `Append` calls. -/
def appendAll (s : Sums) (sum : Sum) : List File → List Bool × Sums
  | [] => ([], s)
  | f :: fs =>
    let p := s.Append sum f
    let q := appendAll p.2 sum fs
    (p.1 :: q.1, q.2)

/-- Total number of entries over all buckets of the map. -/
def bucketsSizeSum (m : List (Sum × List File)) : Nat :=
  (m.map fun kv => kv.2.length).sum

/-- Sum over buckets of (size - 1), i.e. `max 0 (size - 1)` in Go terms. -/
def bucketsDupSum (m : List (Sum × List File)) : Nat :=
  (m.map fun kv => kv.2.length - 1).sum

/-- Total bytes over all entries of all buckets. -/
def bucketsByteSum (m : List (Sum × List File)) : Nat :=
  (m.map fun kv => (kv.2.map fun f => f.Info.size).sum).sum

/-- Bytes of every entry past the first of each bucket. -/
def bucketsDupByteSum (m : List (Sum × List File)) : Nat :=
  (m.map fun kv => (kv.2.tail.map fun f => f.Info.size).sum).sum

/-- Total size of the files inserted by a sequence of `Append` calls. -/
def opsByteSum (ops : List (Sum × File)) : Nat :=
  (ops.map fun op => op.2.Info.size).sum

/-- Invariant tying the stats of a `Sums` to its buckets: keys are unique,
buckets are non-empty, and every counter is the corresponding bucket sum
reduced modulo `U64`. -/
def SumsInv (s : Sums) : Prop :=
  (s.m.map Prod.fst).Nodup ∧
  (∀ kv ∈ s.m, kv.2 ≠ []) ∧
  s.r.NumFiles = bucketsSizeSum s.m % U64 ∧
  s.r.NumBytes = bucketsByteSum s.m % U64 ∧
  s.r.NumDupFiles = bucketsDupSum s.m % U64 ∧
  s.r.NumDupBytes = bucketsDupByteSum s.m % U64

/-- A handle to a `filesys.FileSystem` value as stored in `Options.fs`.
`filesys.OS()` returns the (stateless, empty-struct) host filesystem
`osFS{}`, modelled by the tag `os`; injected test filesystems are opaque
handles. -/
inductive FSHandle where
  | os
  | mock (id : Nat)
deriving DecidableEq, Repr

/-- `Options` (the `dedup` package): configuration shared by `Filter` and
`FilterDir`.  Channels and writers are opaque handles; `fs` is the private
filesystem field, `none` for Go's `nil`. -/
structure Options where
  FollowSymlinks : Bool := false
  Recursive : Bool := false
  ExitOnError : Bool := false
  ExitOnDup : Bool := false
  Cancel : Option Nat := none
  UniqWriter : Option Nat := none
  DupWriter : Option Nat := none
  ErrWriter : Option Nat := none
  fs : Option FSHandle := none
deriving DecidableEq, Repr

/-- The assignment `opts.fs = filesys.OS()` guarded by `opts.fs == nil`
performed at the top of `Filter`. -/
def FilterOptions (opts : Options) : Options :=
  if opts.fs = none then { opts with fs := some FSHandle.os } else opts

/-- The assignment `opts.fs = filesys.OS()` guarded by `opts.fs == nil`
performed at the top of `FilterDir`. -/
def FilterDirOptions (opts : Options) : Options :=
  if opts.fs = none then { opts with fs := some FSHandle.os } else opts

/-- `Errors`: a slice of errors, modelled by their messages. -/
abbrev Errors := List String

/-- `Errors.Error`: each element rendered by its own `Error()` (here, the
message itself), joined with newlines via `strings.Join`. -/
def Errors.Error (el : Errors) : String :=
  String.intercalate "\n" (el.map fun e => e)

/-- One event observed by `run`'s select loop: cancellation fired, a value
arrived on the error / duplicate / unique channel, or that channel was
observed closed. -/
inductive Event where
  | cancelled
  | errEv (msg : String)
  | errClosed
  | dupEv (path : String)
  | dupClosed
  | uniqEv (path : String)
  | uniqClosed
deriving DecidableEq, Repr

/-- The select loop of `run`, folded over the sequence of select outcomes.
Cancellation and a closed channel break the loop; an error is appended to
the aggregate (and breaks the loop when `ExitOnError`); a duplicate breaks
the loop when `ExitOnDup`; unique paths only feed the sink. -/
def runLoop (opts : Options) : List Event → Errors → Errors
  | [], errs => errs
  | ev :: rest, errs =>
    match ev with
    | .cancelled => errs
    | .errClosed => errs
    | .dupClosed => errs
    | .uniqClosed => errs
    | .errEv m => if opts.ExitOnError then errs ++ [m] else runLoop opts rest (errs ++ [m])
    | .dupEv _ => if opts.ExitOnDup then errs else runLoop opts rest errs
    | .uniqEv _ => runLoop opts rest errs

/-- `run`: after the loop exits it returns `f.Sums()` (the index held by
the filter, a parameter here) and the aggregate as the error when it is
non-empty, `nil` otherwise. -/
def run (sums : Sums) (opts : Options) (trace : List Event) : Sums × Option Errors :=
  let errs := runLoop opts trace []
  (sums, if errs = [] then none else some errs)

/-- The prefix of the select outcomes that the loop actually processes,
including the event it breaks on. -/
def processedEvents (opts : Options) : List Event → List Event
  | [] => []
  | ev :: rest =>
    match ev with
    | .cancelled => [ev]
    | .errClosed => [ev]
    | .dupClosed => [ev]
    | .uniqClosed => [ev]
    | .errEv _ => if opts.ExitOnError then [ev] else ev :: processedEvents opts rest
    | .dupEv _ => if opts.ExitOnDup then [ev] else ev :: processedEvents opts rest
    | .uniqEv _ => ev :: processedEvents opts rest

/-- The error messages carried by a sequence of events. -/
def errMsgs (evs : List Event) : List String :=
  evs.filterMap fun ev =>
    match ev with
    | .errEv m => some m
    | _ => none

/-- Lowercase hexadecimal digit, as produced by `fmt`'s `%x` verb. -/
def hexDigitChar (n : Nat) : Char :=
  Char.ofNat (if n < 10 then 48 + n else 87 + n)

/-- Two lowercase hex digits for one byte (`%x` on a byte). -/
def hexByte (b : Nat) : List Char :=
  [hexDigitChar (b / 16 % 16), hexDigitChar (b % 16)]

/-- `%x` on the digest: each byte as two lowercase hex digits. -/
def hexSum (sum : Sum) : String := ⟨sum.flatMap hexByte⟩

/-- One character of Go's `%q` (strconv.Quote) output: `"` and `\` are
backslash-escaped, printable ASCII is literal, the C escapes cover the
usual control characters, and remaining control bytes become `\xhh`.
Non-ASCII printable runes are kept literal, as strconv.Quote does. -/
def quoteChar (c : Char) : List Char :=
  if c = '"' then ['\\', '"']
  else if c = '\\' then ['\\', '\\']
  else if 32 ≤ c.toNat ∧ c.toNat ≤ 126 then [c]
  else if c = '\x07' then ['\\', 'a']
  else if c = '\x08' then ['\\', 'b']
  else if c = '\x0c' then ['\\', 'f']
  else if c = '\n' then ['\\', 'n']
  else if c = '\r' then ['\\', 'r']
  else if c = '\t' then ['\\', 't']
  else if c = '\x0b' then ['\\', 'v']
  else if c.toNat < 32 ∨ c.toNat = 127 then
    ['\\', 'x', hexDigitChar (c.toNat / 16 % 16), hexDigitChar (c.toNat % 16)]
  else [c]

/-- Go's `%q` applied to a path: double quotes around the escaped content. -/
def goQuote (s : String) : String := ⟨'"' :: s.data.flatMap quoteChar ++ ['"']⟩

/-- Byte-wise (for ASCII, character-wise) lexicographic comparison, the
order used by Go's `sort.Strings`. -/
def charListLe : List Char → List Char → Bool
  | [], _ => true
  | _ :: _, [] => false
  | a :: as, b :: bs =>
    if a.toNat < b.toNat then true
    else if b.toNat < a.toNat then false
    else charListLe as bs

/-- String comparison backing `sort.Strings`. -/
def strLe (a b : String) : Bool := charListLe a.data b.data

/-- `sortedPaths` (src/sums.go lines 132-139): the paths of the files,
sorted ascending.  `sort.Strings` is not stable, but equal strings are
identical, so any correct sort produces the same list; an insertion sort
is used here. -/
def sortedPaths (files : List File) : List String :=
  List.insertionSort (fun a b => strLe a b = true) (files.map File.Path)

/-- The header line `<hex-digest>:\n` written for a duplicate group. -/
def dupHeader (sum : Sum) : String := hexSum sum ++ ":\n"

/-- The entry line `- "<path>"\n` written for one path of a group. -/
def dupEntry (path : String) : String := "- " ++ goQuote path ++ "\n"

/-- The inner loop of `WriteAllDup` over the sorted paths of one bucket:
each line goes to the sink (indexed by a running write counter); the first
failed write stops the loop and is returned. -/
def writePathLines (sink : Nat → Option String) : Nat → List String → List String × Nat × Option String
  | i, [] => ([], i, none)
  | i, p :: rest =>
    match sink i with
    | some e => ([], i, some e)
    | none =>
      let q := writePathLines sink (i + 1) rest
      (dupEntry p :: q.1, q.2.1, q.2.2)

/-- The `Range` body of `WriteAllDup` (src/sums.go lines 112-130) over the
bucket list: buckets of size at least two produce a header line and one
line per sorted path; the first failed sink write aborts the iteration. -/
def writeBuckets (sink : Nat → Option String) : Nat → List (Sum × List File) → List String × Option String
  | _, [] => ([], none)
  | i, kv :: rest =>
    if kv.2.length > 1 then
      match sink i with
      | some e => ([], some e)
      | none =>
        let q := writePathLines sink (i + 1) (sortedPaths kv.2)
        match q.2.2 with
        | some e => (dupHeader kv.1 :: q.1, some e)
        | none =>
          let r := writeBuckets sink q.2.1 rest
          (dupHeader kv.1 :: q.1 ++ r.1, r.2)
    else writeBuckets sink i rest

/-- `Sums.WriteAllDup`: runs the bucket loop against a sink whose write
number `i` either succeeds (`none`) or fails with an error (`some e`);
returns the successfully written lines and the error, if any. -/
def Sums.WriteAllDup (s : Sums) (sink : Nat → Option String) : List String × Option String :=
  writeBuckets sink 0 s.m

/-- Declarative description of the duplicate summary for one bucket:
nothing unless the bucket has at least two files, otherwise the hex-digest
header followed by one quoted line per path, paths sorted ascending. -/
def dupGroupLines (kv : Sum × List File) : List String :=
  if kv.2.length ≥ 2 then dupHeader kv.1 :: (sortedPaths kv.2).map dupEntry else []

/-- Declarative description of the whole duplicate summary. -/
def dupLines (s : Sums) : List String := s.m.flatMap dupGroupLines

/-- Generic sequential emitter: writes the given lines to the sink in
order, stopping at (and returning) the first write error. -/
def writeSeq (sink : Nat → Option String) : Nat → List String → List String × Option String
  | _, [] => ([], none)
  | i, l :: rest =>
    match sink i with
    | some e => ([], some e)
    | none =>
      let q := writeSeq sink (i + 1) rest
      (l :: q.1, q.2)

/-- The three output streams of the hashing worker pool (`chanFilter`). -/
inductive StreamName where
  | uniq
  | dup
  | err
deriving DecidableEq, Repr

/-- The channels closed by the goroutine that `chanFilter.Start` launches
after `busyProcs.Wait()` returns, i.e. once every worker has exited
(src/bufferpool.go, `Start`): it closes `f.dup` and `f.err`. -/
def chanFilterStartCloses : List StreamName := [StreamName.dup, StreamName.err]

/-- The channels closed by `chanFilter.Cancel`: none (it only fires the
cancel signal and waits for the workers). -/
def chanFilterCancelCloses : List StreamName := []

/-- The channels closed by a `chanFilter` worker on exit: none. -/
def chanFilterWorkerCloses : List StreamName := []

/-- Every close of a `chanFilter` output stream anywhere in the package. -/
def chanFilterAllCloses : List StreamName :=
  chanFilterStartCloses ++ chanFilterCancelCloses ++ chanFilterWorkerCloses

/-- Outcome of `dirReader.enqueue` for one submitted directory. -/
inductive EnqueueAction where
  | discardDone
  | queued
  | handleSync
deriving DecidableEq, Repr

/-- The possible outcomes of the `select` in `dirReader.enqueue`
(src/dirreader.go lines 81-91): the cancel case is ready iff cancellation
is triggered, the queue-send case is ready iff the bounded queue has room,
and the `default` branch (synchronous `handle`) runs only when no case is
ready.  Go chooses among ready cases nondeterministically, so the result
is the list of possible actions. -/
def enqueueOutcomes (cancelTriggered queueHasRoom : Bool) : List EnqueueAction :=
  let ready :=
    (if cancelTriggered then [EnqueueAction.discardDone] else []) ++
    (if queueHasRoom then [EnqueueAction.queued] else [])
  if ready = [] then [EnqueueAction.handleSync] else ready

/-- `ratioMaxProcs` (the `dedup` package): `maxProcs * n / d` with Go's
truncating integer division, floored at 1.  `maxProcs` is
`runtime.GOMAXPROCS(0)`, a parameter here. -/
def ratioMaxProcs (maxProcs n d : Nat) : Nat :=
  if 1 ≤ maxProcs * n / d then maxProcs * n / d else 1

/-- Worker count of the directory walker: `newDirFilter` passes
`ratioMaxProcs(1, 4)` to `newDirReader`. -/
def dirReaderNumProcs (maxProcs : Nat) : Nat := ratioMaxProcs maxProcs 1 4

/-- Worker count of the hashing pool in directory mode: `newDirFilter`
passes `ratioMaxProcs(3, 4)` to `newChanFilter`. -/
def dirFilterHashProcs (maxProcs : Nat) : Nat := ratioMaxProcs maxProcs 3 4

/-- Worker count of the hashing pool in stream mode: `Filter` passes
`maxProcs` to `newChanFilter` unchanged. -/
def streamFilterHashProcs (maxProcs : Nat) : Nat := maxProcs

/-- `dropCR` of bufio.ScanLines: strips one trailing carriage return from
a token. -/
def dropCRChars (l : List Char) : List Char :=
  match l.reverse with
  | '\r' :: rest => rest.reverse
  | _ => l

/-- The token stream of a `bufio.Scanner` with the ScanLines split
function: tokens are the newline-separated segments (carriage returns
before the newline stripped); a final segment without a newline is a token
unless it is empty. `acc` holds the current segment reversed. -/
def scanLinesAux : List Char → List Char → List String
  | [], acc => if acc = [] then [] else [⟨dropCRChars acc.reverse⟩]
  | '\n' :: rest, acc => String.mk (dropCRChars acc.reverse) :: scanLinesAux rest []
  | c :: rest, acc => scanLinesAux rest (c :: acc)

/-- All scanner tokens of a byte stream. -/
def scanLines (input : List Char) : List String := scanLinesAux input []

/-- The loop body of `readLines`: sends each non-empty line, and breaks
out of the scan loop at the first empty line. -/
def readLinesLoop : List String → List String
  | [] => []
  | line :: rest => if line ≠ "" then line :: readLinesLoop rest else []

/-- `readLines` (the `dedup` package): the lines the goroutine sends on
its channel before closing it. -/
def readLines (input : List Char) : List String := readLinesLoop (scanLines input)

/-- Result of a fallible filesystem call, with the error message. -/
inductive FsResult (α : Type) where
  | ok (v : α)
  | fail (e : String)
deriving DecidableEq, Repr

/-- The two operations of `filesys.FileSystem` that `lstat` consults. -/
structure FileSystem where
  Lstat : String → FsResult GoFileInfo
  Readlink : String → FsResult String

/-- `lstat` (the `dedup` package): wraps `fs.Lstat`; when `followSymlinks`
is set and the entry is a symlink, the link is read and the target is
lstat'ed again, and the target path is returned as the new path. -/
def lstat (fs : FileSystem) (path : String) (followSymlinks : Bool) : FsResult (GoFileInfo × String) :=
  match fs.Lstat path with
  | .fail e => .fail e
  | .ok info =>
    if followSymlinks && info.isSymlink then
      match fs.Readlink path with
      | .fail e => .fail e
      | .ok newPath =>
        match fs.Lstat newPath with
        | .fail e => .fail e
        | .ok info2 => .ok (info2, newPath)
    else .ok (info, path)

/-- A two-entry filesystem used to exercise `lstat`: a symlink and its
regular-file target. -/
def lstatDemoFS : FileSystem :=
  { Lstat := fun p =>
      if p = "/link" then .ok ⟨"link", 9, false, true⟩
      else if p = "/target" then .ok ⟨"target", 5, false, false⟩
      else .fail "not exist"
    Readlink := fun p =>
      if p = "/link" then .ok "/target" else .fail "invalid argument" }

/-- A two-bucket index used to exercise `WriteAllDup`: one duplicate group
(with paths out of order) and one singleton bucket. -/
def writeDemoSums : Sums :=
  { m := [([171, 5], [⟨"/b", ⟨"b", 1, false, false⟩⟩, ⟨"/a", ⟨"a", 2, false, false⟩⟩]),
          ([7], [⟨"/c", ⟨"c", 1, false, false⟩⟩])],
    r := ⟨3, 4, 1, 2⟩ }

/-- A sink whose third write fails. -/
def writeDemoSink (i : Nat) : Option String :=
  if i = 2 then some "boom" else none

theorem alLookup_none_keys : ∀ {m : List (Sum × List File)} {k : Sum},
    alLookup m k = none → k ∉ m.map Prod.fst := by
  intro m k
  induction m with
  | nil => intro _; simp
  | cons kv rest ih =>
    obtain ⟨a, b⟩ := kv
    intro h
    simp only [alLookup] at h
    by_cases hk : a = k
    · rw [if_pos hk] at h; exact absurd h (by simp)
    · rw [if_neg hk] at h
      simp only [List.map_cons, List.mem_cons]
      rintro (h1 | h1)
      · exact hk h1.symm
      · exact ih h h1

theorem alLookup_mem : ∀ {m : List (Sum × List File)} {k : Sum} {v : List File},
    alLookup m k = some v → (k, v) ∈ m := by
  intro m k v
  induction m with
  | nil => intro h; simp [alLookup] at h
  | cons kv rest ih =>
    obtain ⟨a, b⟩ := kv
    intro h
    simp only [alLookup] at h
    by_cases hk : a = k
    · rw [if_pos hk] at h
      injection h with h
      subst hk; subst h
      exact List.mem_cons_self _ _
    · rw [if_neg hk] at h
      exact List.mem_cons_of_mem _ (ih h)

theorem alStore_keys : ∀ (m : List (Sum × List File)) (k : Sum) (w : List File),
    (alStore m k w).map Prod.fst = m.map Prod.fst := by
  intro m k w
  induction m with
  | nil => rfl
  | cons kv rest ih =>
    obtain ⟨a, b⟩ := kv
    by_cases hk : a = k
    · subst hk; simp [alStore]
    · simp [alStore, hk, ih]

theorem mem_alStore : ∀ {m : List (Sum × List File)} {k : Sum} {w : List File}
    {kv' : Sum × List File}, kv' ∈ alStore m k w → kv' = (k, w) ∨ kv' ∈ m := by
  intro m k w kv'
  induction m with
  | nil => intro h; simp [alStore] at h
  | cons kv rest ih =>
    obtain ⟨a, b⟩ := kv
    intro h
    by_cases hk : a = k
    · subst hk
      rw [alStore, if_pos rfl] at h
      rcases List.mem_cons.mp h with h1 | h1
      · exact Or.inl h1
      · exact Or.inr (List.mem_cons_of_mem _ h1)
    · rw [alStore, if_neg hk] at h
      rcases List.mem_cons.mp h with h1 | h1
      · exact Or.inr (h1 ▸ List.mem_cons_self _ _)
      · rcases ih h1 with h2 | h2
        · exact Or.inl h2
        · exact Or.inr (List.mem_cons_of_mem _ h2)

theorem alLookup_alStore_self : ∀ {m : List (Sum × List File)} {k : Sum} {v : List File}
    (w : List File), alLookup m k = some v → alLookup (alStore m k w) k = some w := by
  intro m k v w
  induction m with
  | nil => intro h; simp [alLookup] at h
  | cons kv rest ih =>
    obtain ⟨a, b⟩ := kv
    intro h
    by_cases hk : a = k
    · subst hk; simp [alStore, alLookup]
    · simp only [alLookup, if_neg hk] at h
      simp only [alStore, if_neg hk, alLookup]
      exact ih h

theorem alLookup_alStore_ne : ∀ {m : List (Sum × List File)} {k k' : Sum}
    (w : List File), k' ≠ k → alLookup (alStore m k w) k' = alLookup m k' := by
  intro m k k' w hne
  induction m with
  | nil => rfl
  | cons kv rest ih =>
    obtain ⟨a, b⟩ := kv
    by_cases hk : a = k
    · subst hk
      simp only [alStore, if_pos rfl, alLookup]
      rw [if_neg (fun h => hne h.symm), if_neg (fun h : a = k' => hne h.symm)]
    · simp only [alStore, if_neg hk, alLookup]
      by_cases hk' : a = k'
      · rw [if_pos hk', if_pos hk']
      · rw [if_neg hk', if_neg hk']
        exact ih

theorem alLookup_append_none : ∀ {m : List (Sum × List File)}
    (m2 : List (Sum × List File)) {k : Sum},
    alLookup m k = none → alLookup (m ++ m2) k = alLookup m2 k := by
  intro m m2 k
  induction m with
  | nil => intro _; rfl
  | cons kv rest ih =>
    obtain ⟨a, b⟩ := kv
    intro h
    simp only [alLookup] at h
    by_cases hk : a = k
    · rw [if_pos hk] at h; exact absurd h (by simp)
    · rw [if_neg hk] at h
      simp only [List.cons_append, alLookup, if_neg hk]
      exact ih h

theorem alLookup_append_some : ∀ {m : List (Sum × List File)}
    (m2 : List (Sum × List File)) {k : Sum} {v : List File},
    alLookup m k = some v → alLookup (m ++ m2) k = some v := by
  intro m m2 k v
  induction m with
  | nil => intro h; simp [alLookup] at h
  | cons kv rest ih =>
    obtain ⟨a, b⟩ := kv
    intro h
    simp only [alLookup] at h
    by_cases hk : a = k
    · rw [if_pos hk] at h
      simp only [List.cons_append, alLookup, if_pos hk]
      exact h
    · rw [if_neg hk] at h
      simp only [List.cons_append, alLookup, if_neg hk]
      exact ih h

theorem sum_alStore (g : Sum × List File → Nat) : ∀ {m : List (Sum × List File)}
    {k : Sum} {v : List File} (w : List File), alLookup m k = some v →
    ((alStore m k w).map g).sum + g (k, v) = (m.map g).sum + g (k, w) := by
  intro m k v w
  induction m with
  | nil => intro h; simp [alLookup] at h
  | cons kv rest ih =>
    obtain ⟨a, b⟩ := kv
    intro h
    by_cases hk : a = k
    · subst hk
      simp only [alLookup, if_pos rfl] at h
      injection h with h
      subst h
      simp only [alStore, eq_self_iff_true, if_true, List.map_cons, List.sum_cons]
      omega
    · simp only [alLookup, if_neg hk] at h
      simp only [alStore, if_neg hk, List.map_cons, List.sum_cons]
      have := ih h
      omega

theorem Append_fst (s : Sums) (k : Sum) (f : File) :
    (s.Append k f).1 = (alLookup s.m k).isSome := by
  cases h : alLookup s.m k <;> simp [Sums.Append, h]

theorem Append_m_some {s : Sums} {k : Sum} {v : List File} (f : File)
    (h : alLookup s.m k = some v) :
    ((s.Append k f).2).m = alStore s.m k (v ++ [f]) := by
  simp [Sums.Append, h]

theorem Append_m_none {s : Sums} {k : Sum} (f : File) (h : alLookup s.m k = none) :
    ((s.Append k f).2).m = s.m ++ [(k, [f])] := by
  simp [Sums.Append, h]

theorem Append_r_some {s : Sums} {k : Sum} {v : List File} (f : File)
    (h : alLookup s.m k = some v) :
    ((s.Append k f).2).r =
      ⟨(s.r.NumFiles + 1) % U64, (s.r.NumBytes + f.Info.size % U64) % U64,
       (s.r.NumDupFiles + 1) % U64, (s.r.NumDupBytes + f.Info.size % U64) % U64⟩ := by
  simp [Sums.Append, h]

theorem Append_r_none {s : Sums} {k : Sum} (f : File) (h : alLookup s.m k = none) :
    ((s.Append k f).2).r =
      ⟨(s.r.NumFiles + 1) % U64, (s.r.NumBytes + f.Info.size % U64) % U64,
       s.r.NumDupFiles, s.r.NumDupBytes⟩ := by
  simp [Sums.Append, h]

theorem alLookup_Append_ne {s : Sums} {k k' : Sum} (f : File) (hne : k' ≠ k) :
    alLookup ((s.Append k f).2).m k' = alLookup s.m k' := by
  cases h : alLookup s.m k with
  | some v => rw [Append_m_some f h, alLookup_alStore_ne _ hne]
  | none =>
    rw [Append_m_none f h]
    cases h2 : alLookup s.m k' with
    | some w => exact alLookup_append_some _ h2
    | none =>
      rw [alLookup_append_none _ h2]
      simp [alLookup, Ne.symm hne]

theorem bucket_Append (s : Sums) (k : Sum) (f : File) (k' : Sum) :
    (s.Append k f).2.bucket k' = if k' = k then s.bucket k' ++ [f] else s.bucket k' := by
  by_cases hk : k' = k
  · subst hk
    rw [if_pos rfl]
    cases h : alLookup s.m k' with
    | none =>
      rw [Sums.bucket, Append_m_none f h, alLookup_append_none _ h]
      simp [Sums.bucket, alLookup, h]
    | some v =>
      rw [Sums.bucket, Append_m_some f h, alLookup_alStore_self _ h]
      simp [Sums.bucket, h]
  · rw [if_neg hk, Sums.bucket, alLookup_Append_ne f hk, Sums.bucket]

theorem tail_append_singleton {v : List File} (f : File) (hv : v ≠ []) :
    (v ++ [f]).tail = v.tail ++ [f] := by
  cases v with
  | nil => exact absurd rfl hv
  | cons a as => rfl

theorem bucketsSizeSum_Append (s : Sums) (k : Sum) (f : File) :
    bucketsSizeSum ((s.Append k f).2).m = bucketsSizeSum s.m + 1 := by
  cases h : alLookup s.m k with
  | none => rw [Append_m_none f h]; simp [bucketsSizeSum]
  | some v =>
    rw [Append_m_some f h]
    have hs := sum_alStore (fun kv => kv.2.length) (v ++ [f]) h
    simp only [List.length_append, List.length_singleton] at hs
    unfold bucketsSizeSum
    omega

theorem bucketsByteSum_Append (s : Sums) (k : Sum) (f : File) :
    bucketsByteSum ((s.Append k f).2).m = bucketsByteSum s.m + f.Info.size := by
  cases h : alLookup s.m k with
  | none => rw [Append_m_none f h]; simp [bucketsByteSum]
  | some v =>
    rw [Append_m_some f h]
    have hs := sum_alStore (fun kv => (kv.2.map fun g => g.Info.size).sum) (v ++ [f]) h
    simp only [List.map_append, List.sum_append, List.map_singleton, List.sum_singleton] at hs
    unfold bucketsByteSum
    omega

theorem bucketsDupSum_Append_some {s : Sums} {k : Sum} {v : List File} (f : File)
    (h : alLookup s.m k = some v) (hv : v ≠ []) :
    bucketsDupSum ((s.Append k f).2).m = bucketsDupSum s.m + 1 := by
  rw [Append_m_some f h]
  have hs := sum_alStore (fun kv => kv.2.length - 1) (v ++ [f]) h
  simp only [List.length_append, List.length_singleton] at hs
  have hlen : 1 ≤ v.length := List.length_pos.mpr hv
  unfold bucketsDupSum
  omega

theorem bucketsDupSum_Append_none {s : Sums} {k : Sum} (f : File)
    (h : alLookup s.m k = none) :
    bucketsDupSum ((s.Append k f).2).m = bucketsDupSum s.m := by
  rw [Append_m_none f h]
  simp [bucketsDupSum]

theorem bucketsDupByteSum_Append_some {s : Sums} {k : Sum} {v : List File} (f : File)
    (h : alLookup s.m k = some v) (hv : v ≠ []) :
    bucketsDupByteSum ((s.Append k f).2).m = bucketsDupByteSum s.m + f.Info.size := by
  rw [Append_m_some f h]
  have hs := sum_alStore (fun kv => (kv.2.tail.map fun g => g.Info.size).sum) (v ++ [f]) h
  simp only [] at hs
  rw [tail_append_singleton f hv] at hs
  simp only [List.map_append, List.sum_append, List.map_singleton, List.sum_singleton] at hs
  unfold bucketsDupByteSum
  omega

theorem bucketsDupByteSum_Append_none {s : Sums} {k : Sum} (f : File)
    (h : alLookup s.m k = none) :
    bucketsDupByteSum ((s.Append k f).2).m = bucketsDupByteSum s.m := by
  rw [Append_m_none f h]
  simp [bucketsDupByteSum]

theorem SumsInv_Append {s : Sums} (k : Sum) (f : File) (inv : SumsInv s) :
    SumsInv (s.Append k f).2 := by
  unfold SumsInv at inv ⊢
  obtain ⟨hnd, hne, h1, h2, h3, h4⟩ := inv
  cases h : alLookup s.m k with
  | none =>
    refine ⟨?_, ?_, ?_, ?_, ?_, ?_⟩
    · rw [Append_m_none f h, List.map_append]
      refine List.Nodup.append hnd (by simp) ?_
      intro a ha hb
      simp only [List.map_cons, List.map_nil, List.mem_singleton] at hb
      subst hb
      exact alLookup_none_keys h ha
    · intro kv hkv
      rw [Append_m_none f h] at hkv
      rcases List.mem_append.mp hkv with h' | h'
      · exact hne kv h'
      · rw [List.mem_singleton.mp h']; simp
    · rw [Append_r_none f h]
      show (s.r.NumFiles + 1) % U64 = _
      rw [h1, Nat.mod_add_mod, bucketsSizeSum_Append]
    · rw [Append_r_none f h]
      show (s.r.NumBytes + f.Info.size % U64) % U64 = _
      rw [h2, Nat.mod_add_mod, Nat.add_mod_mod, bucketsByteSum_Append]
    · rw [Append_r_none f h]
      show s.r.NumDupFiles = _
      rw [h3, bucketsDupSum_Append_none f h]
    · rw [Append_r_none f h]
      show s.r.NumDupBytes = _
      rw [h4, bucketsDupByteSum_Append_none f h]
  | some v =>
    have hv : v ≠ [] := hne _ (alLookup_mem h)
    refine ⟨?_, ?_, ?_, ?_, ?_, ?_⟩
    · rw [Append_m_some f h, alStore_keys]
      exact hnd
    · intro kv hkv
      rw [Append_m_some f h] at hkv
      rcases mem_alStore hkv with h' | h'
      · rw [h']; simp
      · exact hne kv h'
    · rw [Append_r_some f h]
      show (s.r.NumFiles + 1) % U64 = _
      rw [h1, Nat.mod_add_mod, bucketsSizeSum_Append]
    · rw [Append_r_some f h]
      show (s.r.NumBytes + f.Info.size % U64) % U64 = _
      rw [h2, Nat.mod_add_mod, Nat.add_mod_mod, bucketsByteSum_Append]
    · rw [Append_r_some f h]
      show (s.r.NumDupFiles + 1) % U64 = _
      rw [h3, Nat.mod_add_mod, bucketsDupSum_Append_some f h hv]
    · rw [Append_r_some f h]
      show (s.r.NumDupBytes + f.Info.size % U64) % U64 = _
      rw [h4, Nat.mod_add_mod, Nat.add_mod_mod, bucketsDupByteSum_Append_some f h hv]

theorem applyOpsFrom_cons (s : Sums) (op : Sum × File) (ops : List (Sum × File)) :
    applyOpsFrom s (op :: ops) = applyOpsFrom (s.Append op.1 op.2).2 ops := rfl

theorem applyOpsFrom_append (s : Sums) (ops more : List (Sum × File)) :
    applyOpsFrom s (ops ++ more) = applyOpsFrom (applyOpsFrom s ops) more := by
  unfold applyOpsFrom
  rw [List.foldl_append]

theorem SumsInv_NewSums : SumsInv NewSums := by
  unfold SumsInv NewSums bucketsSizeSum bucketsByteSum bucketsDupSum bucketsDupByteSum
  simp

theorem SumsInv_applyOpsFrom : ∀ (ops : List (Sum × File)) {s : Sums},
    SumsInv s → SumsInv (applyOpsFrom s ops) := by
  intro ops
  induction ops with
  | nil => intro s h; exact h
  | cons op ops ih =>
    intro s h
    rw [applyOpsFrom_cons]
    exact ih (SumsInv_Append op.1 op.2 h)

theorem SumsInv_applyOps (ops : List (Sum × File)) : SumsInv (applyOps ops) :=
  SumsInv_applyOpsFrom ops SumsInv_NewSums

theorem bucketsSizeSum_applyOpsFrom : ∀ (ops : List (Sum × File)) (s : Sums),
    bucketsSizeSum (applyOpsFrom s ops).m = bucketsSizeSum s.m + ops.length := by
  intro ops
  induction ops with
  | nil => intro s; simp [applyOpsFrom]
  | cons op ops ih =>
    intro s
    rw [applyOpsFrom_cons, ih, bucketsSizeSum_Append, List.length_cons]
    omega

theorem opsByteSum_cons (op : Sum × File) (ops : List (Sum × File)) :
    opsByteSum (op :: ops) = op.2.Info.size + opsByteSum ops := by
  simp [opsByteSum]

theorem bucketsByteSum_applyOpsFrom : ∀ (ops : List (Sum × File)) (s : Sums),
    bucketsByteSum (applyOpsFrom s ops).m = bucketsByteSum s.m + opsByteSum ops := by
  intro ops
  induction ops with
  | nil => intro s; simp [applyOpsFrom, opsByteSum]
  | cons op ops ih =>
    intro s
    rw [applyOpsFrom_cons, ih, bucketsByteSum_Append, opsByteSum_cons]
    omega

theorem bucket_prefix_applyOpsFrom : ∀ (ops : List (Sum × File)) (s : Sums) (k : Sum),
    s.bucket k <+: (applyOpsFrom s ops).bucket k := by
  intro ops
  induction ops with
  | nil => intro s k; exact List.prefix_refl _
  | cons op ops ih =>
    intro s k
    rw [applyOpsFrom_cons]
    have h1 : s.bucket k <+: ((s.Append op.1 op.2).2).bucket k := by
      rw [bucket_Append]
      by_cases hk : k = op.1
      · rw [if_pos hk]; exact List.prefix_append _ _
      · rw [if_neg hk]
    exact h1.trans (ih _ k)

theorem tail_bytes_le (v : List File) :
    (v.tail.map fun g => g.Info.size).sum ≤ (v.map fun g => g.Info.size).sum := by
  cases v with
  | nil => exact Nat.le_refl _
  | cons a as => simp

theorem appendAll_present : ∀ (fs : List File) {s : Sums} {k : Sum} {v : List File},
    alLookup s.m k = some v →
    (appendAll s k fs).1 = List.replicate fs.length true ∧
    alLookup ((appendAll s k fs).2).m k = some (v ++ fs) := by
  intro fs
  induction fs with
  | nil => intro s k v h; exact ⟨rfl, by simpa using h⟩
  | cons f fs ih =>
    intro s k v h
    have hfst : (s.Append k f).1 = true := by rw [Append_fst, h]; rfl
    have hm : alLookup ((s.Append k f).2).m k = some (v ++ [f]) := by
      rw [Append_m_some f h]; exact alLookup_alStore_self _ h
    obtain ⟨ih1, ih2⟩ := ih hm
    constructor
    · simp only [appendAll]
      rw [hfst, ih1, List.length_cons, List.replicate_succ]
    · simp only [appendAll]
      rw [ih2, List.append_assoc, List.singleton_append]

/-- C1: on any index state reachable from `NewSums`, `Sums.Append` returns
true exactly when the bucket for that digest was non-empty before the
call; appending N files in sequence under a previously-absent digest
returns false for the first call and true for the other N-1, and the
final bucket holds all N files in insertion order. -/
theorem C1_append_first_wins (ops : List (Sum × File)) (sum : Sum) :
    (∀ f : File, (((applyOps ops).Append sum f).1 = true ↔ (applyOps ops).bucket sum ≠ [])) ∧
    (∀ fs : List File, fs ≠ [] → (applyOps ops).bucket sum = [] →
      (appendAll (applyOps ops) sum fs).1 = false :: List.replicate (fs.length - 1) true ∧
      (appendAll (applyOps ops) sum fs).2.bucket sum = fs) := by
  have inv := SumsInv_applyOps ops
  unfold SumsInv at inv
  obtain ⟨-, hne, -⟩ := inv
  constructor
  · intro f
    rw [Append_fst]
    cases h : alLookup (applyOps ops).m sum with
    | none => simp [Sums.bucket, h]
    | some v =>
      have hv : v ≠ [] := hne _ (alLookup_mem h)
      simp [Sums.bucket, h, hv]
  · intro fs hfs hb
    have h : alLookup (applyOps ops).m sum = none := by
      cases h : alLookup (applyOps ops).m sum with
      | none => rfl
      | some v =>
        have hv : v ≠ [] := hne _ (alLookup_mem h)
        rw [Sums.bucket, h] at hb
        exact absurd hb hv
    cases fs with
    | nil => exact absurd rfl hfs
    | cons f fs2 =>
      have hfst : ((applyOps ops).Append sum f).1 = false := by rw [Append_fst, h]; rfl
      have hm : alLookup (((applyOps ops).Append sum f).2).m sum = some [f] := by
        rw [Append_m_none f h, alLookup_append_none _ h]
        simp [alLookup]
      obtain ⟨a1, a2⟩ := appendAll_present fs2 hm
      constructor
      · simp only [appendAll]
        rw [hfst, a1]
        simp
      · simp only [appendAll]
        rw [Sums.bucket, a2]
        simp

/-- C1 witness: two appends of distinct files under a fresh digest into
the empty index return false then true and leave both files in order. -/
theorem C1_append_first_wins_witness :
    ((((applyOps []).Append [0] ⟨"/a", ⟨"a", 1, false, false⟩⟩).1 = true ↔
        (applyOps []).bucket [0] ≠ []) ∧
     (appendAll (applyOps []) [0]
        [⟨"/a", ⟨"a", 1, false, false⟩⟩, ⟨"/b", ⟨"b", 2, false, false⟩⟩]).1 =
       false :: List.replicate 1 true ∧
     (appendAll (applyOps []) [0]
        [⟨"/a", ⟨"a", 1, false, false⟩⟩, ⟨"/b", ⟨"b", 2, false, false⟩⟩]).2.bucket [0] =
       [⟨"/a", ⟨"a", 1, false, false⟩⟩, ⟨"/b", ⟨"b", 2, false, false⟩⟩]) :=
  ⟨(C1_append_first_wins [] [0]).1 _,
   (C1_append_first_wins [] [0]).2 _ (by decide) (by decide)⟩

/-- C2: after any sequence of appends from `NewSums`, every present digest
maps to a non-empty bucket; buckets only grow by appending under further
operations; and — as long as the uint64 counters have not wrapped —
`NumFiles` is the sum of bucket sizes, `NumDupFiles` the sum of
`size - 1` over buckets, `NumBytes` the total size inserted (equal to the
sum over all bucket entries), and `NumDupBytes` the total size of entries
past the first of each bucket. -/
theorem C2_stats_consistency (ops : List (Sum × File)) :
    (∀ kv ∈ (applyOps ops).m, kv.2 ≠ []) ∧
    (∀ more k, (applyOps ops).bucket k <+: (applyOps (ops ++ more)).bucket k) ∧
    (ops.length < U64 → opsByteSum ops < U64 →
      (applyOps ops).r.NumFiles = bucketsSizeSum (applyOps ops).m ∧
      (applyOps ops).r.NumDupFiles = bucketsDupSum (applyOps ops).m ∧
      (applyOps ops).r.NumBytes = opsByteSum ops ∧
      (applyOps ops).r.NumBytes = bucketsByteSum (applyOps ops).m ∧
      (applyOps ops).r.NumDupBytes = bucketsDupByteSum (applyOps ops).m) := by
  have inv := SumsInv_applyOps ops
  unfold SumsInv at inv
  obtain ⟨hnd, hne, h1, h2, h3, h4⟩ := inv
  refine ⟨hne, ?_, ?_⟩
  · intro more k
    have hsplit : applyOps (ops ++ more) = applyOpsFrom (applyOps ops) more := by
      rw [applyOps, applyOps, applyOpsFrom_append]
    rw [hsplit]
    exact bucket_prefix_applyOpsFrom more _ k
  · intro hlen hbytes
    have hsize : bucketsSizeSum (applyOps ops).m = ops.length := by
      have hh := bucketsSizeSum_applyOpsFrom ops NewSums
      rw [applyOps] at *
      simpa [NewSums, bucketsSizeSum] using hh
    have hbyteseq : bucketsByteSum (applyOps ops).m = opsByteSum ops := by
      have hh := bucketsByteSum_applyOpsFrom ops NewSums
      rw [applyOps] at *
      simpa [NewSums, bucketsByteSum] using hh
    have hdup_le : bucketsDupSum (applyOps ops).m ≤ bucketsSizeSum (applyOps ops).m :=
      List.sum_le_sum fun kv _ => Nat.sub_le _ 1
    have hdb_le : bucketsDupByteSum (applyOps ops).m ≤ bucketsByteSum (applyOps ops).m :=
      List.sum_le_sum fun kv _ => tail_bytes_le kv.2
    refine ⟨?_, ?_, ?_, ?_, ?_⟩
    · rw [h1]
      exact Nat.mod_eq_of_lt (by omega)
    · rw [h3]
      exact Nat.mod_eq_of_lt (by omega)
    · rw [h2, hbyteseq]
      exact Nat.mod_eq_of_lt hbytes
    · rw [h2]
      exact Nat.mod_eq_of_lt (by omega)
    · rw [h4]
      exact Nat.mod_eq_of_lt (by omega)

/-- C2 witness: three concrete appends (one duplicate digest) satisfy the
stats equations, and a further append only extends the bucket. -/
theorem C2_stats_consistency_witness :
    ((applyOps [([0], ⟨"/a", ⟨"a", 3, false, false⟩⟩),
        ([0], ⟨"/b", ⟨"b", 4, false, false⟩⟩)]).bucket [0] <+:
      (applyOps ([([0], ⟨"/a", ⟨"a", 3, false, false⟩⟩),
        ([0], ⟨"/b", ⟨"b", 4, false, false⟩⟩)] ++
          [([0], ⟨"/c", ⟨"c", 5, false, false⟩⟩)])).bucket [0]) ∧
    ((applyOps [([0], ⟨"/a", ⟨"a", 3, false, false⟩⟩),
        ([0], ⟨"/b", ⟨"b", 4, false, false⟩⟩)]).r.NumFiles =
      bucketsSizeSum (applyOps [([0], ⟨"/a", ⟨"a", 3, false, false⟩⟩),
        ([0], ⟨"/b", ⟨"b", 4, false, false⟩⟩)]).m ∧
     (applyOps [([0], ⟨"/a", ⟨"a", 3, false, false⟩⟩),
        ([0], ⟨"/b", ⟨"b", 4, false, false⟩⟩)]).r.NumDupFiles =
      bucketsDupSum (applyOps [([0], ⟨"/a", ⟨"a", 3, false, false⟩⟩),
        ([0], ⟨"/b", ⟨"b", 4, false, false⟩⟩)]).m ∧
     (applyOps [([0], ⟨"/a", ⟨"a", 3, false, false⟩⟩),
        ([0], ⟨"/b", ⟨"b", 4, false, false⟩⟩)]).r.NumBytes =
      opsByteSum [([0], ⟨"/a", ⟨"a", 3, false, false⟩⟩),
        ([0], ⟨"/b", ⟨"b", 4, false, false⟩⟩)] ∧
     (applyOps [([0], ⟨"/a", ⟨"a", 3, false, false⟩⟩),
        ([0], ⟨"/b", ⟨"b", 4, false, false⟩⟩)]).r.NumBytes =
      bucketsByteSum (applyOps [([0], ⟨"/a", ⟨"a", 3, false, false⟩⟩),
        ([0], ⟨"/b", ⟨"b", 4, false, false⟩⟩)]).m ∧
     (applyOps [([0], ⟨"/a", ⟨"a", 3, false, false⟩⟩),
        ([0], ⟨"/b", ⟨"b", 4, false, false⟩⟩)]).r.NumDupBytes =
      bucketsDupByteSum (applyOps [([0], ⟨"/a", ⟨"a", 3, false, false⟩⟩),
        ([0], ⟨"/b", ⟨"b", 4, false, false⟩⟩)]).m) :=
  ⟨(C2_stats_consistency [([0], ⟨"/a", ⟨"a", 3, false, false⟩⟩),
      ([0], ⟨"/b", ⟨"b", 4, false, false⟩⟩)]).2.1
      [([0], ⟨"/c", ⟨"c", 5, false, false⟩⟩)] [0],
   (C2_stats_consistency [([0], ⟨"/a", ⟨"a", 3, false, false⟩⟩),
      ([0], ⟨"/b", ⟨"b", 4, false, false⟩⟩)]).2.2 (by decide) (by decide)⟩

theorem ratioMaxProcs_eq_max (P n d : Nat) : ratioMaxProcs P n d = max (P * n / d) 1 := by
  unfold ratioMaxProcs
  rcases Nat.eq_zero_or_pos (P * n / d) with h | h
  · simp [h]
  · have h1 : 1 ≤ P * n / d := h
    rw [if_pos h1, Nat.max_eq_left h1]

theorem readLinesLoop_eq_takeWhile (ts : List String) :
    readLinesLoop ts = ts.takeWhile (fun l => l != "") := by
  induction ts with
  | nil => rfl
  | cons t ts ih =>
    by_cases h : t = ""
    · subst h; simp [readLinesLoop, List.takeWhile_cons]
    · simp [readLinesLoop, List.takeWhile_cons, h, ih]

theorem readLinesLoop_ne_empty (ts : List String) : ∀ l ∈ readLinesLoop ts, l ≠ "" := by
  induction ts with
  | nil => intro l hl; simp [readLinesLoop] at hl
  | cons t ts ih =>
    intro l hl
    by_cases h : t = ""
    · subst h; simp [readLinesLoop] at hl
    · rw [readLinesLoop, if_pos h] at hl
      rcases List.mem_cons.mp hl with rfl | hl
      · exact h
      · exact ih l hl

theorem readLinesLoop_split (ts : List String) :
    ∃ rest, ts = readLinesLoop ts ++ rest ∧ (rest = [] ∨ rest.head? = some "") := by
  induction ts with
  | nil => exact ⟨[], rfl, Or.inl rfl⟩
  | cons t ts ih =>
    by_cases h : t = ""
    · subst h
      refine ⟨"" :: ts, ?_, Or.inr rfl⟩
      simp [readLinesLoop]
    · obtain ⟨rest, hts, hr⟩ := ih
      refine ⟨rest, ?_, hr⟩
      rw [readLinesLoop, if_pos h, List.cons_append]
      exact congrArg (t :: ·) hts

/-- C3: the hashing worker pool closes its duplicate-path and error streams
once every worker has exited, but its unique-path stream is never closed
anywhere — contradicting the `filter` interface's documented contract that
`Uniq`, `Dup` and `Err` all close. -/
theorem C3_uniq_stream_never_closed :
    StreamName.uniq ∉ chanFilterAllCloses ∧
    StreamName.dup ∈ chanFilterAllCloses ∧
    StreamName.err ∈ chanFilterAllCloses := by decide

/-- C6 counterexample: when cancellation has been triggered while the
bounded queue still has room, the `select` in `dirReader.enqueue` may take
the queue-send case, so the claim that a cancelled submission is always
discarded is false. -/
theorem C6_counterexample :
    ¬ ∀ a ∈ enqueueOutcomes true true, a = EnqueueAction.discardDone := by decide

/-- C6 (amended): discarding (accounting the item as done) is possible iff
cancellation is triggered, enqueueing is possible iff the queue has room
(even when cancelled, the choice being nondeterministic), and the item is
processed synchronously on the calling thread exactly when cancellation is
not triggered and the queue is full. -/
theorem C6_enqueue_outcomes : ∀ (c q : Bool) (a : EnqueueAction),
    a ∈ enqueueOutcomes c q ↔
      (c = true ∧ a = EnqueueAction.discardDone) ∨
      (q = true ∧ a = EnqueueAction.queued) ∨
      (c = false ∧ q = false ∧ a = EnqueueAction.handleSync) := by
  intro c q a
  cases c <;> cases q <;> cases a <;> decide

/-- C7 counterexample: the worker counts are computed with truncating
division, not a ceiling.  With logical parallelism 2, the directory-mode
hashing pool gets `2*3/4 = 1` worker, while the claimed `⌈3*2/4⌉` is 2;
with parallelism 5 the walker gets `5/4 = 1` worker, not `⌈5/4⌉ = 2`. -/
theorem C7_counterexample :
    dirFilterHashProcs 2 = 1 ∧ (3 * 2 + 3) / 4 = 2 ∧
      dirFilterHashProcs 2 ≠ (3 * 2 + 3) / 4 ∧
    dirReaderNumProcs 5 = 1 ∧ (5 + 3) / 4 = 2 ∧
      dirReaderNumProcs 5 ≠ (5 + 3) / 4 := by decide

/-- C7 (amended): in directory mode, for every logical parallelism P ≥ 1,
the default walker worker count is `max ⌊P/4⌋ 1` and the default hashing
worker count is `max ⌊3P/4⌋ 1` (truncating division floored at one); in
stream mode the hashing worker count is P. -/
theorem C7_worker_counts : ∀ P : Nat, 1 ≤ P →
    dirReaderNumProcs P = max (P / 4) 1 ∧
    dirFilterHashProcs P = max (3 * P / 4) 1 ∧
    streamFilterHashProcs P = P := by
  intro P _
  refine ⟨?_, ?_, rfl⟩
  · rw [dirReaderNumProcs, ratioMaxProcs_eq_max, Nat.mul_one]
  · rw [dirFilterHashProcs, ratioMaxProcs_eq_max, Nat.mul_comm]

/-- C7 witness: at parallelism 5 the walker gets one worker and the
directory-mode hashing pool gets three. -/
theorem C7_worker_counts_witness :
    dirReaderNumProcs 5 = max (5 / 4) 1 ∧
    dirFilterHashProcs 5 = max (3 * 5 / 4) 1 ∧
    streamFilterHashProcs 5 = 5 :=
  C7_worker_counts 5 (by decide)

/-- C8: the line source yields exactly the scanner tokens preceding the
first empty line — all of them non-empty — and stops there: the token
stream splits as the yielded lines followed by a remainder that is either
empty (EOF) or starts with the empty line that terminated the loop. -/
theorem C8_readLines_yields : ∀ input : List Char,
    readLines input = (scanLines input).takeWhile (fun l => l != "") ∧
    (∀ l ∈ readLines input, l ≠ "") ∧
    ∃ rest, scanLines input = readLines input ++ rest ∧
      (rest = [] ∨ rest.head? = some "") := by
  intro input
  exact ⟨readLinesLoop_eq_takeWhile _, readLinesLoop_ne_empty _, readLinesLoop_split _⟩

/-- C9: when following symlinks and the entry is a symlink, `lstat` returns
the result of re-lstat of the readlink target together with the target
path (errors of either call propagating); in every other case it returns
the entry's own info with the input path. -/
theorem C9_lstat_follows_symlinks :
    ∀ (fs : FileSystem) (path : String) (follow : Bool) (info : GoFileInfo),
    (fs.Lstat path = .ok info → follow = true → info.isSymlink = true →
      lstat fs path follow =
        match fs.Readlink path with
        | .fail e => .fail e
        | .ok target =>
          match fs.Lstat target with
          | .fail e => .fail e
          | .ok info2 => .ok (info2, target)) ∧
    (fs.Lstat path = .ok info → (follow = false ∨ info.isSymlink = false) →
      lstat fs path follow = .ok (info, path)) := by
  intro fs path follow info
  constructor
  · intro h hf hs
    subst hf
    rw [lstat, h]
    simp [hs]
  · intro h hcase
    rw [lstat, h]
    rcases hcase with hf | hs
    · subst hf; simp
    · simp [hs]

/-- C9 witness: on a concrete two-entry filesystem, `lstat` of the symlink
with following enabled yields the target's info and path, and with
following disabled yields the link's own info and path. -/
theorem C9_lstat_follows_symlinks_witness :
    lstat lstatDemoFS "/link" true = .ok (⟨"target", 5, false, false⟩, "/target") ∧
    lstat lstatDemoFS "/link" false = .ok (⟨"link", 9, false, true⟩, "/link") := by
  constructor
  · have h := (C9_lstat_follows_symlinks lstatDemoFS "/link" true
      ⟨"link", 9, false, true⟩).1 (by decide) rfl rfl
    exact h.trans (by decide)
  · exact (C9_lstat_follows_symlinks lstatDemoFS "/link" false
      ⟨"link", 9, false, true⟩).2 (by decide) (Or.inl rfl)

/-- C10: both entry points overwrite a nil `fs` field of the caller's
`Options` with the host-OS filesystem, and leave the record untouched —
every field — when `fs` is already set. -/
theorem C10_options_fs_mutation : ∀ opts : Options,
    (opts.fs = none →
      FilterOptions opts = { opts with fs := some FSHandle.os } ∧
      FilterDirOptions opts = { opts with fs := some FSHandle.os }) ∧
    (opts.fs ≠ none →
      FilterOptions opts = opts ∧ FilterDirOptions opts = opts) := by
  intro opts
  constructor
  · intro h
    constructor <;> simp [FilterOptions, FilterDirOptions, h]
  · intro h
    constructor <;> simp [FilterOptions, FilterDirOptions, h]

/-- C10 witness: with a nil `fs` the default record gains the OS handle;
with an injected handle the record comes back unchanged. -/
theorem C10_options_fs_mutation_witness :
    (FilterOptions {} = { fs := some FSHandle.os } ∧
     FilterDirOptions {} = { fs := some FSHandle.os }) ∧
    (FilterOptions { fs := some (FSHandle.mock 3) } = { fs := some (FSHandle.mock 3) } ∧
     FilterDirOptions { fs := some (FSHandle.mock 3) } = { fs := some (FSHandle.mock 3) }) :=
  ⟨(C10_options_fs_mutation {}).1 rfl,
   (C10_options_fs_mutation { fs := some (FSHandle.mock 3) }).2 (by decide)⟩

theorem runLoop_eq (opts : Options) : ∀ (trace : List Event) (acc : Errors),
    runLoop opts trace acc = acc ++ errMsgs (processedEvents opts trace) := by
  intro trace
  induction trace with
  | nil => intro acc; simp [runLoop, processedEvents, errMsgs]
  | cons ev rest ih =>
    intro acc
    cases ev with
    | cancelled => simp [runLoop, processedEvents, errMsgs]
    | errClosed => simp [runLoop, processedEvents, errMsgs]
    | dupClosed => simp [runLoop, processedEvents, errMsgs]
    | uniqClosed => simp [runLoop, processedEvents, errMsgs]
    | errEv m =>
      by_cases h : opts.ExitOnError
      · simp [runLoop, processedEvents, errMsgs, h]
      · simp [runLoop, processedEvents, errMsgs, h, ih]
    | dupEv p =>
      by_cases h : opts.ExitOnDup
      · simp [runLoop, processedEvents, errMsgs, h]
      · simp [runLoop, processedEvents, errMsgs, h, ih]
    | uniqEv p => simp [runLoop, processedEvents, errMsgs, ih]

theorem exitOnError_processed (opts : Options) (h : opts.ExitOnError = true) :
    ∀ trace : List Event, errMsgs (processedEvents opts trace) = [] ∨
      ∃ m pre, processedEvents opts trace = pre ++ [Event.errEv m] ∧ errMsgs pre = [] := by
  intro trace
  induction trace with
  | nil => left; rfl
  | cons ev rest ih =>
    cases ev with
    | cancelled => left; simp [processedEvents, errMsgs]
    | errClosed => left; simp [processedEvents, errMsgs]
    | dupClosed => left; simp [processedEvents, errMsgs]
    | uniqClosed => left; simp [processedEvents, errMsgs]
    | errEv m =>
      right
      exact ⟨m, [], by simp [processedEvents, h], rfl⟩
    | dupEv p =>
      by_cases hd : opts.ExitOnDup
      · left; simp [processedEvents, errMsgs, hd]
      · have hcons : processedEvents opts (Event.dupEv p :: rest) =
            Event.dupEv p :: processedEvents opts rest := by
          simp [processedEvents, hd]
        rcases ih with h1 | ⟨m, pre, hp, hpre⟩
        · left
          rw [hcons, errMsgs, List.filterMap_cons]
          exact h1
        · right
          refine ⟨m, Event.dupEv p :: pre, ?_, ?_⟩
          · rw [hcons, hp]; rfl
          · rw [errMsgs, List.filterMap_cons]
            exact hpre
    | uniqEv p =>
      have hcons : processedEvents opts (Event.uniqEv p :: rest) =
          Event.uniqEv p :: processedEvents opts rest := by
        simp [processedEvents]
      rcases ih with h1 | ⟨m, pre, hp, hpre⟩
      · left
        rw [hcons, errMsgs, List.filterMap_cons]
        exact h1
      · right
        refine ⟨m, Event.uniqEv p :: pre, ?_, ?_⟩
        · rw [hcons, hp]; rfl
        · rw [errMsgs, List.filterMap_cons]
          exact hpre

/-- C4: `run` always returns the index it is handed; the error is nil
exactly when the processed prefix of the select trace carries no error;
otherwise it is the non-empty list of the error messages observed, in
order, whose rendering is their newline join; and under `ExitOnError` the
loop stops at the first error, so the aggregate is that single error. -/
theorem C4_run_error_aggregation (sums : Sums) (opts : Options) (trace : List Event) :
    (run sums opts trace).1 = sums ∧
    ((run sums opts trace).2 = none ↔ errMsgs (processedEvents opts trace) = []) ∧
    (∀ l, (run sums opts trace).2 = some l →
      l ≠ [] ∧ l = errMsgs (processedEvents opts trace) ∧
      Errors.Error l = String.intercalate "\n" l) ∧
    (opts.ExitOnError = true → ∀ l, (run sums opts trace).2 = some l →
      ∃ m pre, l = [m] ∧ processedEvents opts trace = pre ++ [Event.errEv m] ∧
        errMsgs pre = []) := by
  have hrl : runLoop opts trace [] = errMsgs (processedEvents opts trace) := by
    rw [runLoop_eq]; simp
  have hval : ∀ l, (run sums opts trace).2 = some l →
      l = errMsgs (processedEvents opts trace) ∧ errMsgs (processedEvents opts trace) ≠ [] := by
    intro l hl
    simp only [run] at hl
    rw [hrl] at hl
    by_cases h : errMsgs (processedEvents opts trace) = []
    · rw [if_pos h] at hl; exact absurd hl (by simp)
    · rw [if_neg h] at hl
      injection hl with hl
      exact ⟨hl.symm, h⟩
  refine ⟨rfl, ?_, ?_, ?_⟩
  · unfold run
    rw [hrl]
    by_cases h : errMsgs (processedEvents opts trace) = [] <;> simp [h]
  · intro l hl
    obtain ⟨hleq, hne⟩ := hval l hl
    subst hleq
    refine ⟨hne, rfl, ?_⟩
    unfold Errors.Error
    rw [List.map_id']
  · intro hx l hl
    obtain ⟨hleq, hne⟩ := hval l hl
    rcases exitOnError_processed opts hx trace with h1 | ⟨m, pre, hp, hpre⟩
    · exact absurd h1 hne
    · refine ⟨m, pre, ?_, hp, hpre⟩
      have hsplit2 : errMsgs (pre ++ [Event.errEv m]) =
          errMsgs pre ++ errMsgs [Event.errEv m] := List.filterMap_append _ _ _
      rw [hleq, hp, hsplit2, hpre]
      rfl

/-- C4 witness: with `ExitOnError` set and a trace carrying two errors,
`run` returns the given index and an aggregate holding just the first
error, rendered as its own message. -/
theorem C4_run_error_aggregation_witness :
    (run NewSums { ExitOnError := true }
      [Event.uniqEv "/u", Event.errEv "boom", Event.errEv "late"]).1 = NewSums ∧
    (["boom"] ≠ [] ∧
     ["boom"] = errMsgs (processedEvents { ExitOnError := true }
       [Event.uniqEv "/u", Event.errEv "boom", Event.errEv "late"]) ∧
     Errors.Error ["boom"] = String.intercalate "\n" ["boom"]) :=
  ⟨(C4_run_error_aggregation NewSums { ExitOnError := true }
      [Event.uniqEv "/u", Event.errEv "boom", Event.errEv "late"]).1,
   (C4_run_error_aggregation NewSums { ExitOnError := true }
      [Event.uniqEv "/u", Event.errEv "boom", Event.errEv "late"]).2.2.1
      ["boom"] (by decide)⟩

theorem writeSeq_all_none (sink : Nat → Option String) (h : ∀ j, sink j = none) :
    ∀ (ls : List String) (i : Nat), writeSeq sink i ls = (ls, none) := by
  intro ls
  induction ls with
  | nil => intro i; rfl
  | cons l rest ih => intro i; simp [writeSeq, h i, ih (i + 1)]

theorem writeSeq_none_lines (sink : Nat → Option String) :
    ∀ (ls : List String) (i : Nat),
    (writeSeq sink i ls).2 = none → (writeSeq sink i ls).1 = ls := by
  intro ls
  induction ls with
  | nil => intro i _; rfl
  | cons l rest ih =>
    intro i h
    cases hs : sink i with
    | some e => rw [writeSeq, hs] at h; exact absurd h (by simp)
    | none =>
      rw [writeSeq, hs] at h ⊢
      simp only at h ⊢
      rw [ih (i + 1) h]

theorem writeSeq_append_fail (sink : Nat → Option String) :
    ∀ (xs : List String) (ys : List String) (i : Nat) (e : String),
    (writeSeq sink i xs).2 = some e →
    writeSeq sink i (xs ++ ys) = writeSeq sink i xs := by
  intro xs
  induction xs with
  | nil => intro ys i e h; exact absurd h (by simp [writeSeq])
  | cons x xs ih =>
    intro ys i e h
    cases hs : sink i with
    | some e2 => simp [writeSeq, hs]
    | none =>
      rw [writeSeq, hs] at h
      simp only at h
      simp only [List.cons_append, writeSeq, hs, List.append_eq]
      rw [ih ys (i + 1) e h]

theorem writeSeq_append_ok (sink : Nat → Option String) :
    ∀ (xs : List String) (ys : List String) (i : Nat),
    (writeSeq sink i xs).2 = none →
    writeSeq sink i (xs ++ ys) =
      (xs ++ (writeSeq sink (i + xs.length) ys).1, (writeSeq sink (i + xs.length) ys).2) := by
  intro xs
  induction xs with
  | nil => intro ys i _; simp
  | cons x xs ih =>
    intro ys i h
    cases hs : sink i with
    | some e => rw [writeSeq, hs] at h; exact absurd h (by simp)
    | none =>
      rw [writeSeq, hs] at h
      simp only at h
      simp only [List.cons_append, writeSeq, hs, List.append_eq]
      rw [ih ys (i + 1) h]
      have hlen : i + 1 + xs.length = i + (x :: xs).length := by
        rw [List.length_cons]; omega
      rw [hlen]

theorem writeSeq_fail_at (sink : Nat → Option String) :
    ∀ (ls : List String) (i k : Nat) (e : String),
    (∀ j, j < k → sink (i + j) = none) → sink (i + k) = some e → k < ls.length →
    writeSeq sink i ls = (ls.take k, some e) := by
  intro ls
  induction ls with
  | nil => intro i k e _ _ hk; exact absurd hk (by simp)
  | cons l rest ih =>
    intro i k e h1 h2 hk
    cases k with
    | zero =>
      have hs : sink i = some e := by simpa using h2
      simp [writeSeq, hs]
    | succ k2 =>
      have h0 : sink i = none := by simpa using h1 0 (Nat.succ_pos _)
      have hrec := ih (i + 1) k2 e
        (fun j hj => by
          have hh := h1 (j + 1) (by omega)
          rw [show i + (j + 1) = i + 1 + j from by omega] at hh
          exact hh)
        (by rw [show i + 1 + k2 = i + (k2 + 1) from by omega]; exact h2)
        (by rw [List.length_cons] at hk; omega)
      simp [writeSeq, h0, hrec, List.take_succ_cons]

theorem writePathLines_eq (sink : Nat → Option String) :
    ∀ (ps : List String) (i : Nat),
    (writePathLines sink i ps).1 = (writeSeq sink i (ps.map dupEntry)).1 ∧
    (writePathLines sink i ps).2.2 = (writeSeq sink i (ps.map dupEntry)).2 ∧
    ((writePathLines sink i ps).2.2 = none → (writePathLines sink i ps).2.1 = i + ps.length) := by
  intro ps
  induction ps with
  | nil => exact fun i => ⟨rfl, rfl, fun _ => by simp [writePathLines]⟩
  | cons p rest ih =>
    intro i
    cases hs : sink i with
    | some e =>
      refine ⟨?_, ?_, ?_⟩ <;> simp [writePathLines, writeSeq, hs]
    | none =>
      obtain ⟨i1, i2, i3⟩ := ih (i + 1)
      refine ⟨?_, ?_, ?_⟩
      · simp [writePathLines, writeSeq, hs, i1]
      · simp [writePathLines, writeSeq, hs, i2]
      · intro hnone
        simp only [writePathLines, hs] at hnone ⊢
        rw [i3 hnone, List.length_cons]
        omega

theorem writeBuckets_eq (sink : Nat → Option String) :
    ∀ (m : List (Sum × List File)) (i : Nat),
    writeBuckets sink i m = writeSeq sink i (m.flatMap dupGroupLines) := by
  intro m
  induction m with
  | nil => intro i; rfl
  | cons kv rest ih =>
    intro i
    by_cases hlen : kv.2.length > 1
    · have hge : kv.2.length ≥ 2 := by omega
      have hflat : (kv :: rest).flatMap dupGroupLines =
          dupHeader kv.1 :: ((sortedPaths kv.2).map dupEntry ++ rest.flatMap dupGroupLines) := by
        rw [List.flatMap_cons, dupGroupLines, if_pos hge, List.cons_append]
      rw [hflat]
      obtain ⟨p1, p2, p3⟩ := writePathLines_eq sink (sortedPaths kv.2) (i + 1)
      cases hs : sink i with
      | some e => simp [writeBuckets, writeSeq, hlen, hs]
      | none =>
        cases hq : (writePathLines sink (i + 1) (sortedPaths kv.2)).2.2 with
        | some e =>
          have hw : (writeSeq sink (i + 1) ((sortedPaths kv.2).map dupEntry)).2 = some e := by
            rw [← p2]; exact hq
          have happ := writeSeq_append_fail sink _ (rest.flatMap dupGroupLines) (i + 1) e hw
          simp [writeBuckets, hlen, hs, hq, writeSeq, happ, p1]
          exact hw.symm
        | none =>
          have hw : (writeSeq sink (i + 1) ((sortedPaths kv.2).map dupEntry)).2 = none := by
            rw [← p2]; exact hq
          have hlines : (writeSeq sink (i + 1) ((sortedPaths kv.2).map dupEntry)).1 =
              (sortedPaths kv.2).map dupEntry := writeSeq_none_lines sink _ (i + 1) hw
          have happ := writeSeq_append_ok sink _ (rest.flatMap dupGroupLines) (i + 1) hw
          have hcnt := p3 hq
          simp [writeBuckets, hlen, hs, hq, writeSeq, happ, p1, hlines, hcnt, ih,
            List.length_map]
    · have hge : ¬ kv.2.length ≥ 2 := by omega
      rw [List.flatMap_cons, dupGroupLines, if_neg hge, List.nil_append]
      simp only [writeBuckets, if_neg hlen]
      exact ih i

theorem charListLe_total : ∀ x y : List Char,
    charListLe x y = true ∨ charListLe y x = true := by
  intro x
  induction x with
  | nil => intro y; left; rfl
  | cons a as ih =>
    intro y
    cases y with
    | nil => right; rfl
    | cons b bs =>
      by_cases hab : a.toNat < b.toNat
      · left; simp [charListLe, hab]
      · by_cases hba : b.toNat < a.toNat
        · right; simp [charListLe, hba]
        · rcases ih bs with h | h
          · left; simp [charListLe, hab, hba, h]
          · right; simp [charListLe, hab, hba, h]

theorem charListLe_trans : ∀ x y z : List Char,
    charListLe x y = true → charListLe y z = true → charListLe x z = true := by
  intro x
  induction x with
  | nil => intro y z _ _; rfl
  | cons a as ih =>
    intro y z hxy hyz
    cases y with
    | nil => rw [charListLe] at hxy; exact absurd hxy (by simp)
    | cons b bs =>
      cases z with
      | nil => rw [charListLe] at hyz; exact absurd hyz (by simp)
      | cons c cs =>
        simp only [charListLe] at hxy hyz ⊢
        by_cases hab : a.toNat < b.toNat
        · by_cases hbc : b.toNat < c.toNat
          · simp [show a.toNat < c.toNat from by omega]
          · by_cases hcb : c.toNat < b.toNat
            · rw [if_neg hbc, if_pos hcb] at hyz; exact absurd hyz (by simp)
            · simp [show a.toNat < c.toNat from by omega]
        · by_cases hba : b.toNat < a.toNat
          · rw [if_neg hab, if_pos hba] at hxy; exact absurd hxy (by simp)
          · rw [if_neg hab, if_neg hba] at hxy
            by_cases hbc : b.toNat < c.toNat
            · simp [show a.toNat < c.toNat from by omega]
            · by_cases hcb : c.toNat < b.toNat
              · rw [if_neg hbc, if_pos hcb] at hyz; exact absurd hyz (by simp)
              · rw [if_neg hbc, if_neg hcb] at hyz
                rw [if_neg (show ¬ a.toNat < c.toNat from by omega),
                  if_neg (show ¬ c.toNat < a.toNat from by omega)]
                exact ih bs cs hxy hyz

/-- C5: with a sink that never fails, `WriteAllDup` emits exactly, for the
buckets of size at least two, the lowercase-hex digest header followed by
one `- "<path>"` line per file with the paths sorted ascending and quoted;
with a sink whose k-th write fails first (within the summary), it emits
exactly the first k lines and returns that write's error.  `sortedPaths`
is a sorted permutation of the bucket's paths. -/
theorem C5_write_all_dup (s : Sums) (sink : Nat → Option String) :
    ((∀ j, sink j = none) → s.WriteAllDup sink = (dupLines s, none)) ∧
    (∀ k e, (∀ j, j < k → sink j = none) → sink k = some e → k < (dupLines s).length →
      s.WriteAllDup sink = ((dupLines s).take k, some e)) ∧
    (∀ files : List File,
      List.Pairwise (fun a b => strLe a b = true) (sortedPaths files) ∧
      (sortedPaths files).Perm (files.map File.Path)) := by
  refine ⟨?_, ?_, ?_⟩
  · intro h
    rw [Sums.WriteAllDup, writeBuckets_eq, dupLines]
    exact writeSeq_all_none sink h _ 0
  · intro k e h1 h2 hk
    rw [Sums.WriteAllDup, writeBuckets_eq]
    exact writeSeq_fail_at sink _ 0 k e
      (fun j hj => by simpa using h1 j hj) (by simpa using h2) hk
  · intro files
    haveI htot : IsTotal String (fun a b => strLe a b = true) :=
      ⟨fun a b => charListLe_total a.data b.data⟩
    haveI htrans : IsTrans String (fun a b => strLe a b = true) :=
      ⟨fun a b c => charListLe_trans a.data b.data c.data⟩
    constructor
    · rw [sortedPaths]
      exact List.sorted_insertionSort _ _
    · rw [sortedPaths]
      exact List.perm_insertionSort _ _

/-- C5 witness: on a concrete index with one duplicate group, an always-ok
sink yields the three summary lines, and a sink failing on its third write
yields the first two lines and the error. -/
theorem C5_write_all_dup_witness :
    writeDemoSums.WriteAllDup (fun _ => none) = (dupLines writeDemoSums, none) ∧
    dupLines writeDemoSums = ["ab05:\n", "- \"/a\"\n", "- \"/b\"\n"] ∧
    writeDemoSums.WriteAllDup writeDemoSink =
      ((dupLines writeDemoSums).take 2, some "boom") :=
  ⟨(C5_write_all_dup writeDemoSums (fun _ => none)).1 (fun _ => rfl),
   by decide,
   (C5_write_all_dup writeDemoSums writeDemoSink).2.1 2 "boom"
     (fun j hj => by
       have : j = 0 ∨ j = 1 := by omega
       rcases this with rfl | rfl <;> rfl)
     rfl (by decide)⟩

end Dedup
